import Mathlib

/-!
Shallow embedding of the configuration and permission layer of
`crates/chat-cli` (files `src/cli/agent.rs` and `src/cli/persona.rs`):
the permission data model, the JSON (de)serialization of permission
tables, the scope-merge algorithms for MCP-server maps and
agent/persona collections, and the permission-evaluation entry points.

Rust `HashMap`s are modelled as association lists (`List (key × value)`,
with a no-duplicate-keys hypothesis where a claim needs it), `HashSet`s
as `Finset`, fallible operations as `Except String`, and JSON documents
as an inductive `Json` type.
-/

/-- JSON documents, as produced and consumed by serde_json. -/
inductive Json where
  | null
  | bool (b : Bool)
  | str (s : String)
  | num (n : Int)
  | arr (elems : List Json)
  | obj (fields : List (String × Json))

/-- `PermissionEvalResult` from `agent.rs` / `persona.rs`: the three-valued
decision of the permission engine. -/
inductive PermissionEvalResult where
  | Allow
  | Ask
  | Deny
deriving DecidableEq

/-- `PermissionSubject` from `persona.rs`: the name a permission entry
applies to, either the wildcard `All` or an exact name. -/
inductive PermissionSubject where
  | All
  | ExactName (name : String)
deriving DecidableEq

/-- `impl Borrow<str> for PermissionSubject`: the canonical string of a
subject, `"*"` for `All`. -/
def PermissionSubject.borrow : PermissionSubject → String
  | .All => "*"
  | .ExactName name => name

/-- `impl PartialEq for PermissionSubject`: equality compares the two
canonical strings. -/
def PermissionSubject.beq (a b : PermissionSubject) : Bool :=
  a.borrow == b.borrow

/-- `impl Hash for PermissionSubject`: the data fed to the hasher is the
canonical string, so the hash value is the hasher applied to it.  The
hasher itself is a parameter (Rust's `H: Hasher` state). -/
def PermissionSubject.hashWith {α : Type} (hasher : String → α)
    (s : PermissionSubject) : α :=
  hasher s.borrow

/-- `impl Deserialize for PermissionSubject`: the string `"*"` decodes to
`All`, every other string to `ExactName`. -/
def PermissionSubject.deserialize (s : String) : PermissionSubject :=
  if s == "*" then .All else .ExactName s

/-- Derived `Serialize` of `PermissionSubject` as seen through
serde_json's map-key serializer (the type is only serialized as a
`HashMap` key): a unit variant is emitted as its variant name (`"All"`),
while a newtype variant such as `ExactName` is rejected with serde_json's
"key must be a string" error. -/
def PermissionSubject.serializeKey : PermissionSubject → Except String String
  | .All => .ok "All"
  | .ExactName _ => .error "key must be a string"

/-- `ToolPermission` from `persona.rs`: the decision policy attached to a
subject. -/
inductive ToolPermission where
  | AlwaysAllow
  | Deny
  | DetailedList (always_allow : List String) (deny : List String)
deriving DecidableEq

/-- Derived `Serialize` of `ToolPermission` with `#[serde(untagged)]`:
an untagged unit variant serializes to JSON `null` (serde emits the
variant's data, and a unit variant has none); the struct variant
serializes to a map of its fields, renamed to camelCase. -/
def ToolPermission.serialize : ToolPermission → Json
  | .AlwaysAllow => .null
  | .Deny => .null
  | .DetailedList always_allow deny =>
      .obj [("alwaysAllow", .arr (always_allow.map .str)),
            ("deny", .arr (deny.map .str))]

/-- Decoding a JSON array of strings (serde's `Vec<String>` decode):
elements are decoded in order and the first non-string element is an
error. -/
def decodeStrings : List Json → Except String (List String)
  | [] => .ok []
  | j :: rest =>
      match j with
      | .str s => (decodeStrings rest).map (fun tail => s :: tail)
      | _ => .error "invalid type: expected string"

/-- Decoding `Vec<String>` from a JSON document: only an array is
accepted. -/
def decodeStringList : Json → Except String (List String)
  | .arr elems => decodeStrings elems
  | _ => .error "invalid type: expected a sequence"

/-- The map loop of `ToolPermissionVisitor::visit_map`: fields are
consumed in order into the two accumulators (a repeated key overwrites
the earlier value); an unknown key is an `unknown_field` error. -/
def ToolPermission.visitMap :
    List (String × Json) → List String → List String →
    Except String ToolPermission
  | [], always_allow, deny => .ok (.DetailedList always_allow deny)
  | (key, value) :: rest, always_allow, deny =>
      if key = "alwaysAllow" then
        match decodeStringList value with
        | .ok v => ToolPermission.visitMap rest v deny
        | .error e => .error e
      else if key = "deny" then
        match decodeStringList value with
        | .ok v => ToolPermission.visitMap rest always_allow v
        | .error e => .error e
      else .error ("unknown field " ++ key)

/-- `impl Deserialize for ToolPermission` (`deserialize_any` with
`ToolPermissionVisitor`): a bare string `"alwaysAllow"`/`"deny"` decodes
to the simple variants, other strings are `unknown_variant` errors; a
map decodes through `visit_map`; every other JSON shape hits the
visitor's default methods and errors. -/
def ToolPermission.deserialize : Json → Except String ToolPermission
  | .str s =>
      if s = "alwaysAllow" then .ok .AlwaysAllow
      else if s = "deny" then .ok .Deny
      else .error ("unknown variant " ++ s)
  | .obj fields => ToolPermission.visitMap fields [] []
  | _ => .error "invalid type: expected string or map"

/-- `ToolPermissions` from `persona.rs`: one scope's full policy table;
`built_in` keyed by subject, `custom` keyed by MCP-server subject and
then by tool subject.  The Rust `HashMap`s are modelled as association
lists. -/
structure ToolPermissions where
  built_in : List (PermissionSubject × ToolPermission)
  custom : List (PermissionSubject × List (PermissionSubject × ToolPermission))

/-- Serializing one `HashMap<PermissionSubject, ToolPermission>` as a
JSON object: each key goes through the map-key serializer, each value
through `ToolPermission.serialize`. -/
def serializePermMap :
    List (PermissionSubject × ToolPermission) →
    Except String (List (String × Json))
  | [] => .ok []
  | (k, v) :: rest =>
      match k.serializeKey with
      | .ok key =>
          (serializePermMap rest).map (fun tail => (key, v.serialize) :: tail)
      | .error e => .error e

/-- Serializing the flattened `custom` map: each server key through the
map-key serializer, each inner table as a JSON object. -/
def serializeCustom :
    List (PermissionSubject × List (PermissionSubject × ToolPermission)) →
    Except String (List (String × Json))
  | [] => .ok []
  | (k, v) :: rest =>
      match k.serializeKey with
      | .ok key =>
          match serializePermMap v with
          | .ok fields =>
              (serializeCustom rest).map
                (fun tail => (key, Json.obj fields) :: tail)
          | .error e => .error e
      | .error e => .error e

/-- Derived `Serialize` of `ToolPermissions`: a JSON object with the
`built_in` field under the key `"builtIn"` and the `custom` map
flattened into the same object. -/
def ToolPermissions.serialize (t : ToolPermissions) : Except String Json :=
  match serializePermMap t.built_in with
  | .ok builtIn =>
      match serializeCustom t.custom with
      | .ok custom => .ok (.obj (("builtIn", Json.obj builtIn) :: custom))
      | .error e => .error e
  | .error e => .error e

/-- Decoding one permission map: keys through
`PermissionSubject.deserialize`, values through
`ToolPermission.deserialize`. -/
def deserializePermMap :
    List (String × Json) →
    Except String (List (PermissionSubject × ToolPermission))
  | [] => .ok []
  | (k, v) :: rest =>
      match ToolPermission.deserialize v with
      | .ok perm =>
          (deserializePermMap rest).map
            (fun tail => (PermissionSubject.deserialize k, perm) :: tail)
      | .error e => .error e

/-- Decoding the flattened `custom` map: every top-level key other than
`"builtIn"`, whose value must itself be a JSON object of permissions. -/
def deserializeCustom :
    List (String × Json) →
    Except String (List (PermissionSubject × List (PermissionSubject × ToolPermission)))
  | [] => .ok []
  | (k, v) :: rest =>
      match v with
      | .obj vfields =>
          match deserializePermMap vfields with
          | .ok inner =>
              (deserializeCustom rest).map
                (fun tail => (PermissionSubject.deserialize k, inner) :: tail)
          | .error e => .error e
      | _ => .error "invalid type: expected a map"

/-- Derived `Deserialize` of `ToolPermissions` (with `serde(flatten)` on
`custom`): the input must be a JSON object; the `"builtIn"` key is
required and decodes the `built_in` table; every remaining key becomes a
`custom` entry. -/
def ToolPermissions.deserialize : Json → Except String ToolPermissions
  | .obj fields =>
      (match fields.lookup "builtIn" with
      | none => .error "missing field builtIn"
      | some bj =>
          match bj with
          | .obj bfields =>
              match deserializePermMap bfields with
              | .ok built_in =>
                  match deserializeCustom
                      (fields.filter (fun f => f.1 != "builtIn")) with
                  | .ok custom => .ok (ToolPermissions.mk built_in custom)
                  | .error e => .error e
              | .error e => .error e
          | _ => .error "invalid type: expected a map")
  | _ => .error "invalid type: expected a map"

/-- `CustomToolConfig` (the MCP connection spec referenced from
`agent.rs`; its defining module is outside this fragment).
Modelled from the spec: "mapping of MCP server name → connection spec",
with the `command`/`args` shape the `agent.rs` test JSON exercises.  The
merge logic never inspects it. -/
structure CustomToolConfig where
  command : String
  args : List String
deriving DecidableEq

/-- `McpServerConfig` from `agent.rs`: the map of MCP server name to
connection spec (a `HashMap`, modelled as an association list). -/
structure McpServerConfig where
  mcp_servers : List (String × CustomToolConfig)

/-- Lookup in an association list keyed by strings (Rust
`HashMap::get`). -/
def lookupStr {α : Type} (m : List (String × α)) (k : String) : Option α :=
  (m.find? (fun p => p.1 == k)).map (fun p => p.2)

/-- Rust `HashMap::insert` on the association-list model: replaces the
first binding of the key if present, otherwise appends; the second
component is `insert(..).is_some()`, i.e. whether the key was already
present. -/
def insertServer {α : Type} :
    List (String × α) → String → α → List (String × α) × Bool
  | [], k, v => ([(k, v)], false)
  | (k', v') :: rest, k, v =>
      if k' = k then ((k, v) :: rest, true)
      else
        let r := insertServer rest k v
        ((k', v') :: r.1, r.2)

/-- The merge loop of `McpServerConfig::load_config`: every local entry
is inserted into the global map, and a conflict warning naming the
server is emitted exactly when `insert` reports the key was already
present.  Returns the final map and the list of warned server names. -/
def mergeMcp {α : Type} (global_conf : List (String × α)) :
    List (String × α) → List (String × α) × List String
  | [] => (global_conf, [])
  | (server_name, config) :: rest =>
      let r := insertServer global_conf server_name config
      let rec_result := mergeMcp r.1 rest
      (rec_result.1,
       if r.2 then server_name :: rec_result.2 else rec_result.2)

/-- `McpServerConfig::load_config` after file I/O and decoding: the two
inputs are the decoded global and local maps (`none` when the scope's
file was unreadable).  Both present: merge with local overwriting; one
present: that map unchanged; neither: the empty default.  Returns the
configuration and the emitted conflict-warning names. -/
def McpServerConfig.load_config {α : Type}
    (global_buf local_buf : Option (List (String × α))) :
    List (String × α) × List String :=
  match global_buf, local_buf with
  | some global_conf, some local_conf => mergeMcp global_conf local_conf
  | none, some local_conf => (local_conf, [])
  | some global_conf, none => (global_conf, [])
  | none, none => ([], [])

/-- `Agent` from `agent.rs` (externally known as "Persona"): a named
configuration bundle.  `allowed_tools` is a `HashSet<String>`, modelled
as a `Finset`; `tools_settings` maps tool names to raw JSON values. -/
structure Agent where
  name : String
  description : Option String
  prompt : Option String
  mcp_servers : McpServerConfig
  tools : List String
  allowed_tools : Finset String
  file_hooks : List String
  start_hooks : List String
  prompt_hooks : List String
  tools_settings : List (String × Json)

/-- `impl Default for Agent`: the built-in "Default" persona, fully
trusted (`tools = ["*"]`, `allowed_tools = {"*"}`) with the conventional
context files. -/
def Agent.default : Agent where
  name := "Default"
  description := some "Default persona"
  prompt := none
  mcp_servers := McpServerConfig.mk []
  tools := ["*"]
  allowed_tools := {"*"}
  file_hooks := ["AmazonQ.md", "README.md", ".amazonq/rules/**/*.md"]
  start_hooks := []
  prompt_hooks := []
  tools_settings := []

/-- `Agent::eval_perm`: if `allowed_tools` has exactly one element and
contains `"*"`, return `Allow` without consulting the candidate;
otherwise delegate to the candidate's `eval` (the candidate trait object
is modelled as its `eval` function). -/
def Agent.eval_perm (a : Agent)
    (candidate : Agent → PermissionEvalResult) : PermissionEvalResult :=
  if a.allowed_tools.card = 1 ∧ "*" ∈ a.allowed_tools then .Allow
  else candidate a

/-- `AgentCollection` from `agent.rs`: the loaded agents and the index
of the active one. -/
structure AgentCollection where
  agents : List Agent
  active_idx : Nat

/-- `AgentCollection::get_active`. -/
def AgentCollection.get_active (c : AgentCollection) : Option Agent :=
  c.agents.get? c.active_idx

/-- `AgentCollection::switch` exactly as written in the source: the
find predicate compares `agent.name` with `agent.name` (not with the
requested `name`), so it matches the first agent of a non-empty
collection; only an empty collection reaches the error.  Returns the
updated collection together with the returned agent. -/
def AgentCollection.switch (c : AgentCollection) (name : String) :
    Except String (AgentCollection × Agent) :=
  match (c.agents.enum).find? (fun p => p.2.name == p.2.name) with
  | some (i, agent) =>
      .ok ({ c with active_idx := i }, agent)
  | none => .error ("No agent with name " ++ name ++ " found")

/-- The `global_agents.retain(..)` step of `AgentCollection::load`: a
global agent is dropped, with a conflict warning naming it, exactly when
its name is among the local names; otherwise it is kept silently.
Returns the retained agents and the warned names, in order. -/
def retainAgents (local_names : Finset String) :
    List Agent → List Agent × List String
  | [] => ([], [])
  | a :: rest =>
      let r := retainAgents local_names rest
      if a.name ∈ local_names then (r.1, a.name :: r.2)
      else (a :: r.1, r.2)

/-- `AgentCollection::load` after directory scanning: the two inputs are
the agents decoded from the local and global persona directories.  Local
names win; the filtered global list is appended after the local list; an
empty merge falls back to the single default agent; the active index is
0.  Returns the collection and the emitted conflict-warning names. -/
def AgentCollection.load (local_agents global_agents : List Agent) :
    AgentCollection × List String :=
  let local_names : Finset String := (local_agents.map Agent.name).toFinset
  let r := retainAgents local_names global_agents
  let merged := local_agents ++ r.1
  let merged := if merged.isEmpty then [Agent.default] else merged
  (AgentCollection.mk merged 0, r.2)

/-- `Trigger` from `persona.rs`. -/
inductive Trigger where
  | PerPrompt
  | ConversationStart
deriving DecidableEq

/-- `Hook` from `persona.rs`. -/
structure Hook where
  trigger : Trigger
  command : String
deriving DecidableEq

/-- `Context` from `persona.rs`: per-scope file globs and named hooks. -/
structure PersonaContext where
  files : List String
  hooks : List (String × Hook)

/-- `McpServerList` from `persona.rs`. -/
inductive McpServerList where
  | All
  | List (servers : List String)

/-- `PersonaConfig` from `persona.rs`. -/
structure PersonaConfig where
  mcp_servers : McpServerList
  tool_perms : ToolPermissions
  context : PersonaContext

/-- `impl Default for PersonaConfig` (via the field defaults): the
default server list is `All`, the default permission table grants
`AlwaysAllow` to `fs_read` and `report_issue`, and the default context
carries the conventional files with no hooks. -/
def PersonaConfig.default : PersonaConfig where
  mcp_servers := .All
  tool_perms :=
    ToolPermissions.mk
      [(PermissionSubject.ExactName "fs_read", ToolPermission.AlwaysAllow),
       (PermissionSubject.ExactName "report_issue", ToolPermission.AlwaysAllow)]
      []
  context :=
    PersonaContext.mk ["AmazonQ.md", "README.md", ".amazonq/rules/**/*.md"] []

/-- `Persona` from `persona.rs`: a local persona carries its file path,
a global one only its name and config. -/
inductive Persona where
  | Local (path : String) (name : String) (config : PersonaConfig)
  | Global (name : String) (config : PersonaConfig)

/-- The name of a persona. -/
def Persona.name : Persona → String
  | .Local _ name _ => name
  | .Global name _ => name

/-- The `global_personas.retain(..)` step of `Persona::load`, exactly as
written in the source: for every `Global` entry the conflict warning is
queued BEFORE the membership test, so a warning naming the persona is
emitted for every global entry whether or not its name collides; the
entry itself is kept exactly when its name is not among the local names.
A non-`Global` entry is dropped silently. -/
def retainPersonas (local_names : Finset String) :
    List Persona → List Persona × List String
  | [] => ([], [])
  | p :: rest =>
      let r := retainPersonas local_names rest
      match p with
      | .Global name _ =>
          if name ∈ local_names then (r.1, name :: r.2)
          else (p :: r.1, name :: r.2)
      | .Local _ _ _ => (r.1, r.2)

/-- `Persona::load` after directory scanning: the inputs are the
personas decoded from the local and global scopes.  Local names (of
`Local` entries) are collected, the global list is filtered by
`retainPersonas`, and the result is the local list followed by the
retained globals — with NO fallback for the empty case.  Returns the
merged list and the emitted warning names. -/
def Persona.load (local_personas global_personas : List Persona) :
    List Persona × List String :=
  let local_names : Finset String :=
    ((local_personas.filterMap (fun p =>
        match p with
        | .Local _ name _ => some name
        | .Global _ _ => none))).toFinset
  let r := retainPersonas local_names global_personas
  (local_personas ++ r.1, r.2)

/-- `ToolPermissions::evaluate`: pure double dispatch — the candidate's
`eval` is applied to the table. -/
def ToolPermissions.evaluate (t : ToolPermissions)
    (candidateEval : ToolPermissions → PermissionEvalResult) :
    PermissionEvalResult :=
  candidateEval t

/-- `HashMap<PermissionSubject, _>` lookup by a string name: subjects
hash and compare by their canonical string, so `get(name)` finds the
entry whose canonical string equals the name (the wildcard entry is the
canonical string `"*"`). -/
def lookupSubject {α : Type} (m : List (PermissionSubject × α))
    (name : String) : Option α :=
  (m.find? (fun p => p.1.borrow == name)).map (fun p => p.2)

/-- Modelled from the spec: the per-tool argument matcher behind a
`PermissionCandidate` — no tool implementing the trait is part of this
fragment.  `arg` is the tool's argument or command; `matchesRule entry arg`
is the tool-specific rule deciding whether a `DetailedList` entry
matches the argument (glob, path-prefix, command-prefix, …). -/
structure DetailedListCandidate where
  arg : String
  matchesRule : String → String → Bool

/-- Modelled from the spec: evaluating a `DetailedList{always_allow,
deny}` entry against the candidate's argument — "deny entries take
precedence over always_allow entries when both could match", and if
neither list matches the result is `Ask`. -/
def DetailedListCandidate.evalDetailed (c : DetailedListCandidate)
    (always_allow deny : List String) : PermissionEvalResult :=
  if deny.any (fun entry => c.matchesRule entry c.arg) then .Deny
  else if always_allow.any (fun entry => c.matchesRule entry c.arg) then .Allow
  else .Ask

/-- Modelled from the spec: a tool's `PermissionCandidate::eval` for a
built-in tool named `subject` — look the subject up in `built_in`,
return simple decisions directly, delegate `DetailedList` to the
argument matcher, and `Ask` when no entry exists. -/
def specCandidateEval (c : DetailedListCandidate) (subject : String)
    (t : ToolPermissions) : PermissionEvalResult :=
  match lookupSubject t.built_in subject with
  | some .AlwaysAllow => .Allow
  | some .Deny => .Deny
  | some (.DetailedList always_allow deny) =>
      c.evalDetailed always_allow deny
  | none => .Ask

/-- An agent whose `allowed_tools` contains the wildcard alongside a
second entry. -/
def probeAgent : Agent :=
  { Agent.default with name := "probe", allowed_tools := {"*", "extra"} }

/-- An agent differing from the default only in its name. -/
def agentNamed (n : String) : Agent :=
  { Agent.default with name := n }

/-- A permission table whose only entry maps the wildcard subject to
`AlwaysAllow`. -/
def wildcardAllowTable : ToolPermissions :=
  ToolPermissions.mk [(PermissionSubject.All, ToolPermission.AlwaysAllow)] []

/-- C1: the claim as stated is false: for an agent whose `allowed_tools`
contains `"*"` together with another entry, `eval_perm` does not return
`Allow` for every candidate — the candidate's own `eval` is invoked and
its answer (here `Deny`) is returned, because the source short-circuits
only when `allowed_tools.len() == 1`. -/
theorem c1_contains_wildcard_not_sufficient :
    "*" ∈ probeAgent.allowed_tools ∧
    probeAgent.eval_perm (fun _ => PermissionEvalResult.Deny) =
      PermissionEvalResult.Deny ∧
    ¬ (probeAgent.eval_perm (fun _ => PermissionEvalResult.Deny) =
      PermissionEvalResult.Allow) := by
  decide

/-- C1 (amended): for every agent whose `allowed_tools` set is exactly
the one-element set `{"*"}`, `eval_perm` returns `Allow` for every
candidate, without invoking the candidate's own `eval`. -/
theorem c1_singleton_wildcard_short_circuit (a : Agent)
    (h : a.allowed_tools = {"*"})
    (candidate : Agent → PermissionEvalResult) :
    a.eval_perm candidate = PermissionEvalResult.Allow := by
  simp [Agent.eval_perm, h]

/-- C1 witness: the default agent has `allowed_tools = {"*"}` and is
short-circuited to `Allow` past a candidate that would answer `Ask`. -/
theorem c1_singleton_wildcard_short_circuit_witness :
    Agent.default.eval_perm (fun _ => PermissionEvalResult.Ask) =
      PermissionEvalResult.Allow :=
  c1_singleton_wildcard_short_circuit Agent.default rfl
    (fun _ => PermissionEvalResult.Ask)

/-- C2: evaluating `switch` as written in the source on the collection
`[alpha, beta]` with requested name `"beta"`: the result is `Ok`, the
active index stays 0 and the returned agent is `"alpha"` — the find
predicate compares an agent's name with itself, so the requested name is
ignored and the first agent always wins. -/
theorem c2_switch_ignores_requested_name :
    ((AgentCollection.mk [agentNamed "alpha", agentNamed "beta"] 0).switch
        "beta").map (fun p => (p.1.active_idx, p.2.name)) =
      Except.ok (0, "alpha") ∧
    ("alpha" : String) ≠ "beta" := by
  exact ⟨rfl, by decide⟩

/-- C3: evaluating `Persona::load` as written in the source with no
local personas and a single global persona `"g"`: no name collides, the
global persona is kept in the merged list, and yet the conflict warning
naming `"g"` is emitted — the warning is queued before the membership
test, so it fires for every global entry, not precisely for
collisions. -/
theorem c3_persona_warning_without_conflict :
    (Persona.load [] [Persona.Global "g" PersonaConfig.default]).2 =
      ["g"] ∧
    ((Persona.load [] [Persona.Global "g" PersonaConfig.default]).1.map
        Persona.name) = ["g"] := by
  exact ⟨rfl, rfl⟩

/-- C5: the claim as stated is false for `Persona::load`, which has no
fallback: with zero entities from both scopes it returns the empty list,
not a one-element collection holding the built-in default. -/
theorem c5_persona_load_no_fallback :
    Persona.load [] [] = ([], []) ∧
    (Persona.load [] []).1.length = 0 := by
  exact ⟨rfl, rfl⟩

/-- C5 (amended): `AgentCollection::load` does fall back: with zero
entities from both scopes the loaded collection is exactly the
one-element list holding the built-in default agent. -/
theorem c5_agent_load_fallback :
    (AgentCollection.load [] []).1.agents = [Agent.default] ∧
    (AgentCollection.load [] []).1.agents.length = 1 := by
  exact ⟨rfl, rfl⟩

/-- C6: the round-trip fails.  Serializing the table `{* ↦ AlwaysAllow}`
succeeds but encodes the untagged unit variant as `null` (and the
wildcard key as `"All"`), and decoding that JSON is an error because the
`ToolPermission` visitor accepts only strings and maps; serializing any
table with an `ExactName` key fails outright, since the derived key
serializer rejects a newtype variant as a map key. -/
theorem c6_roundtrip_fails :
    wildcardAllowTable.serialize =
      Except.ok (Json.obj [("builtIn", Json.obj [("All", Json.null)])]) ∧
    ToolPermissions.deserialize
        (Json.obj [("builtIn", Json.obj [("All", Json.null)])]) =
      Except.error "invalid type: expected string or map" ∧
    ToolPermissions.serialize
        (ToolPermissions.mk
          [(PermissionSubject.ExactName "fs_read",
            ToolPermission.AlwaysAllow)] []) =
      Except.error "key must be a string" := by
  exact ⟨rfl, rfl, rfl⟩

/-- C10: with no persona files at either scope, `AgentCollection::load`
yields exactly the default agent (active), whose `allowed_tools` is
exactly `{"*"}`, and `eval_perm` on it returns `Allow` for every
candidate. -/
theorem c10_unconfigured_full_trust :
    (AgentCollection.load [] []).1 = AgentCollection.mk [Agent.default] 0 ∧
    Agent.default.allowed_tools = {"*"} ∧
    ∀ candidate : Agent → PermissionEvalResult,
      Agent.default.eval_perm candidate = PermissionEvalResult.Allow := by
  refine ⟨rfl, rfl, fun candidate => ?_⟩
  simp [Agent.eval_perm, Agent.default]

/-- C10 witness: the default agent allows even a candidate that would
answer `Deny`. -/
theorem c10_unconfigured_full_trust_witness :
    Agent.default.eval_perm (fun _ => PermissionEvalResult.Deny) =
      PermissionEvalResult.Allow :=
  c10_unconfigured_full_trust.2.2 (fun _ => PermissionEvalResult.Deny)

/-- C4: for every permission table whose entry for the subject is a
`DetailedList`, and every candidate whose argument matches (under the
tool's own matching rule) at least one `deny` entry and at least one
`always_allow` entry, `ToolPermissions::evaluate` with the
(spec-modelled) tool candidate returns `Deny`: deny entries take
precedence over always_allow entries. -/
theorem c4_deny_precedence (t : ToolPermissions) (subject : String)
    (c : DetailedListCandidate) (always_allow deny : List String)
    (hentry : lookupSubject t.built_in subject =
      some (ToolPermission.DetailedList always_allow deny))
    (hdeny : ∃ e ∈ deny, c.matchesRule e c.arg = true)
    (hallow : ∃ e ∈ always_allow, c.matchesRule e c.arg = true) :
    t.evaluate (specCandidateEval c subject) = PermissionEvalResult.Deny := by
  have hany : deny.any (fun entry => c.matchesRule entry c.arg) = true := by
    rw [List.any_eq_true]
    exact hdeny
  simp [ToolPermissions.evaluate, specCandidateEval, hentry,
    DetailedListCandidate.evalDetailed, hany]

/-- A shell-style candidate for the command `"npm install"` whose
matching rule is command-prefix matching (on the character lists). -/
def npmInstallCandidate : DetailedListCandidate :=
  DetailedListCandidate.mk "npm install"
    (fun entry arg => entry.data.isPrefixOf arg.data)

/-- A table whose `execute_bash` entry lists `"npm"` in both
`always_allow` and `deny`. -/
def npmBothListsTable : ToolPermissions :=
  ToolPermissions.mk
    [(PermissionSubject.ExactName "execute_bash",
      ToolPermission.DetailedList ["npm"] ["npm"])] []

/-- C4 witness: with `"npm"` on both lists, the command `"npm install"`
matches both, and the evaluation is `Deny`. -/
theorem c4_deny_precedence_witness :
    npmBothListsTable.evaluate
        (specCandidateEval npmInstallCandidate "execute_bash") =
      PermissionEvalResult.Deny :=
  c4_deny_precedence npmBothListsTable "execute_bash" npmInstallCandidate
    ["npm"] ["npm"] rfl
    ⟨"npm", by decide, by decide⟩
    ⟨"npm", by decide, by decide⟩

/-- C8: subjects compare and hash by the canonical string (`"*"` for
`All`): equality is string equality of the canonical strings, the hash
input is the canonical string for any hasher, so `All` and
`ExactName "*"` compare equal and hash identically; and decoding `"*"`
yields `All` while decoding any other string `s` yields
`ExactName s`. -/
theorem c8_subject_canonical_string :
    (∀ a b : PermissionSubject, a.beq b = (a.borrow == b.borrow)) ∧
    (∀ (α : Type) (hasher : String → α) (a : PermissionSubject),
      PermissionSubject.hashWith hasher a = hasher a.borrow) ∧
    PermissionSubject.All.beq (PermissionSubject.ExactName "*") = true ∧
    (∀ (α : Type) (hasher : String → α),
      PermissionSubject.hashWith hasher PermissionSubject.All =
        PermissionSubject.hashWith hasher (PermissionSubject.ExactName "*")) ∧
    PermissionSubject.deserialize "*" = PermissionSubject.All ∧
    (∀ s : String, s ≠ "*" →
      PermissionSubject.deserialize s = PermissionSubject.ExactName s) := by
  refine ⟨fun a b => rfl, fun α hasher a => rfl, by decide,
    fun α hasher => rfl, by decide, fun s hs => ?_⟩
  simp [PermissionSubject.deserialize, hs]

/-- C8 witness: decoding a non-wildcard string yields `ExactName`. -/
theorem c8_subject_canonical_string_witness :
    PermissionSubject.deserialize "fs_read" =
      PermissionSubject.ExactName "fs_read" :=
  c8_subject_canonical_string.2.2.2.2.2 "fs_read" (by decide)

/-- Encoding a list of strings as a JSON array of strings. -/
def encodeStringList (xs : List String) : Json :=
  Json.arr (xs.map Json.str)

/-- Decoding inverts encoding on arrays of strings. -/
theorem decodeStrings_encode (xs : List String) :
    decodeStrings (xs.map Json.str) = Except.ok xs := by
  induction xs with
  | nil => rfl
  | cons x rest ih => simp [decodeStrings, ih, Except.map]

/-- The `visit_map` loop errors whenever some field has a key other than
`"alwaysAllow"` and `"deny"`, whatever the accumulators hold. -/
theorem visitMap_unknown_key (fields : List (String × Json))
    (h : ∃ p ∈ fields, p.1 ≠ "alwaysAllow" ∧ p.1 ≠ "deny") :
    ∀ always_allow deny : List String,
      ∃ e, ToolPermission.visitMap fields always_allow deny =
        Except.error e := by
  induction fields with
  | nil => simp at h
  | cons p rest ih =>
      intro always_allow deny
      obtain ⟨q, hq, hq1, hq2⟩ := h
      by_cases h1 : p.1 = "alwaysAllow"
      · have hrest : ∃ p ∈ rest, p.1 ≠ "alwaysAllow" ∧ p.1 ≠ "deny" := by
          rcases List.mem_cons.mp hq with hq' | hq'
          · exact absurd (hq' ▸ h1) hq1
          · exact ⟨q, hq', hq1, hq2⟩
        obtain ⟨k, v⟩ := p
        simp only at h1
        subst h1
        cases hd : decodeStringList v with
        | ok xs =>
            obtain ⟨e, he⟩ := ih hrest xs deny
            exact ⟨e, by simp [ToolPermission.visitMap, hd, he]⟩
        | error e =>
            exact ⟨e, by simp [ToolPermission.visitMap, hd]⟩
      · by_cases h2 : p.1 = "deny"
        · have hrest : ∃ p ∈ rest, p.1 ≠ "alwaysAllow" ∧ p.1 ≠ "deny" := by
            rcases List.mem_cons.mp hq with hq' | hq'
            · exact absurd (hq' ▸ h2) hq2
            · exact ⟨q, hq', hq1, hq2⟩
          obtain ⟨k, v⟩ := p
          simp only at h2
          subst h2
          cases hd : decodeStringList v with
          | ok xs =>
              obtain ⟨e, he⟩ := ih hrest always_allow xs
              exact ⟨e, by simp [ToolPermission.visitMap, hd, he]⟩
          | error e =>
              exact ⟨e, by simp [ToolPermission.visitMap, hd]⟩
        · obtain ⟨k, v⟩ := p
          simp only at h1 h2
          exact ⟨"unknown field " ++ k,
            by simp [ToolPermission.visitMap, h1, h2]⟩

/-- C7: decoding a `ToolPermission`: the bare strings `"alwaysAllow"`
and `"deny"` give the simple variants and every other bare string is an
error; the empty map and the maps whose keys are drawn from
`{"alwaysAllow", "deny"}` (in either order, with string-list values)
give `DetailedList` with absent keys defaulting to the empty list; and
any map containing any other key is a decode error. -/
theorem c7_tool_permission_decode :
    ToolPermission.deserialize (Json.str "alwaysAllow") =
      Except.ok ToolPermission.AlwaysAllow ∧
    ToolPermission.deserialize (Json.str "deny") =
      Except.ok ToolPermission.Deny ∧
    (∀ s : String, s ≠ "alwaysAllow" → s ≠ "deny" →
      ToolPermission.deserialize (Json.str s) =
        Except.error ("unknown variant " ++ s)) ∧
    ToolPermission.deserialize (Json.obj []) =
      Except.ok (ToolPermission.DetailedList [] []) ∧
    (∀ A : List String,
      ToolPermission.deserialize
          (Json.obj [("alwaysAllow", encodeStringList A)]) =
        Except.ok (ToolPermission.DetailedList A [])) ∧
    (∀ D : List String,
      ToolPermission.deserialize (Json.obj [("deny", encodeStringList D)]) =
        Except.ok (ToolPermission.DetailedList [] D)) ∧
    (∀ A D : List String,
      ToolPermission.deserialize
          (Json.obj [("alwaysAllow", encodeStringList A),
            ("deny", encodeStringList D)]) =
        Except.ok (ToolPermission.DetailedList A D)) ∧
    (∀ A D : List String,
      ToolPermission.deserialize
          (Json.obj [("deny", encodeStringList D),
            ("alwaysAllow", encodeStringList A)]) =
        Except.ok (ToolPermission.DetailedList A D)) ∧
    (∀ fields : List (String × Json),
      (∃ p ∈ fields, p.1 ≠ "alwaysAllow" ∧ p.1 ≠ "deny") →
      ∃ e, ToolPermission.deserialize (Json.obj fields) = Except.error e) := by
  refine ⟨rfl, rfl, fun s h1 h2 => ?_, rfl, fun A => ?_, fun D => ?_,
    fun A D => ?_, fun A D => ?_, fun fields h => ?_⟩
  · simp [ToolPermission.deserialize, h1, h2]
  · simp [ToolPermission.deserialize, ToolPermission.visitMap,
      decodeStringList, encodeStringList, decodeStrings_encode]
  · simp [ToolPermission.deserialize, ToolPermission.visitMap,
      decodeStringList, encodeStringList, decodeStrings_encode]
  · simp [ToolPermission.deserialize, ToolPermission.visitMap,
      decodeStringList, encodeStringList, decodeStrings_encode]
  · simp [ToolPermission.deserialize, ToolPermission.visitMap,
      decodeStringList, encodeStringList, decodeStrings_encode]
  · exact visitMap_unknown_key fields h [] []

/-- C7 witness: an unknown bare string errors; a two-key map decodes to
the detailed list; a map with an unknown key errors. -/
theorem c7_tool_permission_decode_witness :
    ToolPermission.deserialize (Json.str "bogus") =
      Except.error "unknown variant bogus" ∧
    ToolPermission.deserialize
        (Json.obj [("alwaysAllow", encodeStringList ["npm"]),
          ("deny", encodeStringList ["curl"])]) =
      Except.ok (ToolPermission.DetailedList ["npm"] ["curl"]) ∧
    (∃ e, ToolPermission.deserialize
        (Json.obj [("extra", Json.null)]) = Except.error e) :=
  ⟨c7_tool_permission_decode.2.2.1 "bogus" (by decide) (by decide),
   c7_tool_permission_decode.2.2.2.2.2.2.1 ["npm"] ["curl"],
   c7_tool_permission_decode.2.2.2.2.2.2.2.2 [("extra", Json.null)]
     ⟨("extra", Json.null), by simp, by decide, by decide⟩⟩


/-- Unfolding `lookupStr` over a head binding. -/
theorem lookupStr_cons {α : Type} (k' : String) (v' : α)
    (rest : List (String × α)) (k : String) :
    lookupStr ((k', v') :: rest) k =
      if k' = k then some v' else lookupStr rest k := by
  by_cases h : k' = k
  · have hb : (k' == k) = true := beq_iff_eq.mpr h
    simp only [lookupStr, List.find?, hb, if_pos h]
    rfl
  · have hb : (k' == k) = false := beq_eq_false_iff_ne.mpr h
    simp only [lookupStr, List.find?, hb, if_neg h]

/-- Lookup misses when the key is not among the map's keys. -/
theorem lookupStr_eq_none_of_not_mem {α : Type} (m : List (String × α))
    (k : String) (h : k ∉ m.map Prod.fst) : lookupStr m k = none := by
  induction m with
  | nil => rfl
  | cons p rest ih =>
      rcases p with ⟨k', v'⟩
      simp only [List.map_cons, List.mem_cons, not_or] at h
      rw [lookupStr_cons, if_neg (fun hh => h.1 hh.symm)]
      exact ih h.2

/-- Unfolding `insertServer` over a head binding. -/
theorem insertServer_cons_eq {α : Type} (k'' : String) (v'' : α)
    (rest : List (String × α)) (k : String) (v : α) :
    insertServer ((k'', v'') :: rest) k v =
      if k'' = k then ((k, v) :: rest, true)
      else ((k'', v'') :: (insertServer rest k v).1,
        (insertServer rest k v).2) :=
  rfl

/-- `insert` leaves every other key's binding alone and binds the
inserted key to the new value. -/
theorem insertServer_lookup {α : Type} (m : List (String × α)) (k : String)
    (v : α) (k' : String) :
    lookupStr (insertServer m k v).1 k' =
      if k' = k then some v else lookupStr m k' := by
  induction m with
  | nil =>
      show lookupStr ((k, v) :: []) k' = _
      rw [lookupStr_cons]
      by_cases h : k' = k
      · rw [if_pos h.symm, if_pos h]
      · rw [if_neg (fun hh => h hh.symm), if_neg h]
  | cons p rest ih =>
      rcases p with ⟨k'', v''⟩
      rw [insertServer_cons_eq]
      by_cases h : k'' = k
      · rw [if_pos h]
        show lookupStr ((k, v) :: rest) k' = _
        rw [lookupStr_cons, lookupStr_cons]
        by_cases h2 : k' = k
        · rw [if_pos h2.symm, if_pos h2]
        · rw [if_neg (fun hh => h2 hh.symm), if_neg h2,
            if_neg (fun hh => h2 (h ▸ hh).symm)]
      · rw [if_neg h]
        show lookupStr ((k'', v'') :: (insertServer rest k v).1) k' = _
        rw [lookupStr_cons, lookupStr_cons, ih]
        by_cases h2 : k'' = k'
        · have hne : ¬ (k' = k) := fun hh => h (h2.symm ▸ hh)
          rw [if_pos h2, if_pos h2, if_neg hne]
        · rw [if_neg h2, if_neg h2]

/-- `insert(..).is_some()` reports exactly whether the key was already
present. -/
theorem insertServer_present {α : Type} (m : List (String × α)) (k : String)
    (v : α) :
    (insertServer m k v).2 = true ↔ k ∈ m.map Prod.fst := by
  induction m with
  | nil => simp [insertServer]
  | cons p rest ih =>
      rcases p with ⟨k'', v''⟩
      rw [insertServer_cons_eq]
      by_cases h : k'' = k
      · rw [if_pos h]
        simp [h]
      · rw [if_neg h]
        show (insertServer rest k v).2 = true ↔ _
        rw [ih]
        simp only [List.map_cons, List.mem_cons]
        exact (or_iff_right (fun hh => h hh.symm)).symm

/-- The key set after `insert` is the old key set plus the inserted
key. -/
theorem insertServer_mem_keys {α : Type} (m : List (String × α)) (k : String)
    (v : α) (k' : String) :
    k' ∈ (insertServer m k v).1.map Prod.fst ↔
      (k' ∈ m.map Prod.fst ∨ k' = k) := by
  induction m with
  | nil =>
      show k' ∈ [k] ↔ _
      simp
  | cons p rest ih =>
      rcases p with ⟨k'', v''⟩
      rw [insertServer_cons_eq]
      by_cases h : k'' = k
      · rw [if_pos h]
        show k' ∈ k :: rest.map Prod.fst ↔ _
        subst h
        simp only [List.mem_cons, List.map_cons]
        tauto
      · rw [if_neg h]
        show k' ∈ k'' :: (insertServer rest k v).1.map Prod.fst ↔ _
        simp only [List.mem_cons, List.map_cons, ih]
        tauto

/-- Unfolding `mergeMcp` over a head binding. -/
theorem mergeMcp_cons_eq {α : Type} (g : List (String × α)) (n : String)
    (c : α) (rest : List (String × α)) :
    mergeMcp g ((n, c) :: rest) =
      ((mergeMcp (insertServer g n c).1 rest).1,
        if (insertServer g n c).2 then
          n :: (mergeMcp (insertServer g n c).1 rest).2
        else (mergeMcp (insertServer g n c).1 rest).2) :=
  rfl

/-- The merge loop's final map: the local binding where the local map
has the key, the global binding otherwise (the local keys are distinct,
as they come from a decoded `HashMap`). -/
theorem mergeMcp_lookup {α : Type} (l : List (String × α)) :
    ∀ g : List (String × α), (l.map Prod.fst).Nodup →
      ∀ k, lookupStr (mergeMcp g l).1 k =
        (lookupStr l k).or (lookupStr g k) := by
  induction l with
  | nil =>
      intro g _ k
      rfl
  | cons p rest ih =>
      intro g hl k
      rcases p with ⟨n, c⟩
      simp only [List.map_cons, List.nodup_cons] at hl
      rw [mergeMcp_cons_eq]
      show lookupStr (mergeMcp (insertServer g n c).1 rest).1 k = _
      rw [ih (insertServer g n c).1 hl.2 k, insertServer_lookup,
        lookupStr_cons]
      by_cases hk : k = n
      · rw [if_pos hk, if_pos hk.symm,
          lookupStr_eq_none_of_not_mem rest k (hk ▸ hl.1)]
        rfl
      · rw [if_neg hk, if_neg (fun hh => hk hh.symm)]

/-- The merge loop warns exactly on the local keys that are also global
keys, in local order. -/
theorem mergeMcp_warns {α : Type} (l : List (String × α)) :
    ∀ g : List (String × α), (l.map Prod.fst).Nodup →
      (mergeMcp g l).2 =
        (l.map Prod.fst).filter (fun k => decide (k ∈ g.map Prod.fst)) := by
  induction l with
  | nil =>
      intro g _
      rfl
  | cons p rest ih =>
      intro g hl
      rcases p with ⟨n, c⟩
      simp only [List.map_cons, List.nodup_cons] at hl
      rw [mergeMcp_cons_eq]
      show (if (insertServer g n c).2 then
          n :: (mergeMcp (insertServer g n c).1 rest).2
        else (mergeMcp (insertServer g n c).1 rest).2) = _
      have hrec := ih (insertServer g n c).1 hl.2
      have hfilter :
          (rest.map Prod.fst).filter
              (fun k => decide (k ∈ (insertServer g n c).1.map Prod.fst)) =
            (rest.map Prod.fst).filter
              (fun k => decide (k ∈ g.map Prod.fst)) := by
        apply List.filter_congr
        intro a ha
        have han : ¬ (a = n) := fun hh => hl.1 (hh ▸ ha)
        rw [decide_eq_decide, insertServer_mem_keys]
        exact or_iff_left han
      rw [hrec, hfilter]
      simp only [List.map_cons, List.filter_cons]
      by_cases hk : n ∈ g.map Prod.fst
      · have hp : (insertServer g n c).2 = true :=
          (insertServer_present g n c).mpr hk
        rw [hp]
        simp [hk]
      · have hp : (insertServer g n c).2 = false := by
          rw [Bool.eq_false_iff]
          intro hh
          exact hk ((insertServer_present g n c).mp hh)
        rw [hp]
        simp [hk]

/-- C9: merging MCP-server maps in `load_config`: with both scopes
decoded, every key bound locally gets the local value and every other
key its global value, and the conflict warnings name exactly the keys
present in both maps (in local order); with one readable scope its map
is returned unchanged with no warning; with neither, the empty
default. -/
theorem c9_mcp_scope_merge {α : Type} (g l : List (String × α))
    (hl : (l.map Prod.fst).Nodup) :
    (∀ k, lookupStr (McpServerConfig.load_config (some g) (some l)).1 k =
      (lookupStr l k).or (lookupStr g k)) ∧
    (McpServerConfig.load_config (some g) (some l)).2 =
      (l.map Prod.fst).filter (fun k => decide (k ∈ g.map Prod.fst)) ∧
    McpServerConfig.load_config none (some l) = (l, []) ∧
    McpServerConfig.load_config (some g) none = (g, []) ∧
    McpServerConfig.load_config (none : Option (List (String × α))) none =
      ([], []) := by
  refine ⟨fun k => ?_, ?_, rfl, rfl, rfl⟩
  · exact mergeMcp_lookup l g hl k
  · exact mergeMcp_warns l g hl

/-- C9 witness: global `{a ↦ 1, b ↦ 2}` and local `{b ↦ 3, c ↦ 4}` merge
to the local value on the collision `b`, keep `a` and `c`, and warn
exactly on `b`. -/
theorem c9_mcp_scope_merge_witness :
    lookupStr (McpServerConfig.load_config (some [("a", 1), ("b", 2)])
        (some [("b", 3), ("c", 4)])).1 "b" = some 3 ∧
    lookupStr (McpServerConfig.load_config (some [("a", 1), ("b", 2)])
        (some [("b", 3), ("c", 4)])).1 "a" = some 1 ∧
    lookupStr (McpServerConfig.load_config (some [("a", 1), ("b", 2)])
        (some [("b", 3), ("c", 4)])).1 "c" = some 4 ∧
    (McpServerConfig.load_config (some [("a", 1), ("b", 2)])
        (some [("b", 3), ("c", 4)])).2 = ["b"] :=
  ⟨((c9_mcp_scope_merge [("a", 1), ("b", 2)] [("b", 3), ("c", 4)]
      (by decide)).1 "b").trans (by decide),
   ((c9_mcp_scope_merge [("a", 1), ("b", 2)] [("b", 3), ("c", 4)]
      (by decide)).1 "a").trans (by decide),
   ((c9_mcp_scope_merge [("a", 1), ("b", 2)] [("b", 3), ("c", 4)]
      (by decide)).1 "c").trans (by decide),
   ((c9_mcp_scope_merge [("a", 1), ("b", 2)] [("b", 3), ("c", 4)]
      (by decide)).2.1).trans (by decide)⟩
